import Mathlib

/-!
Verification of the module-graph engine of the digo-web-pack bundler.

The definitions below are a shallow embedding of `src/module.ts` and
`src/js.ts`: JavaScript numbers that can hold `undefined`/`NaN` are
modelled by an explicit sum type, uninitialized (`undefined`) object
fields by `Option`, and a JavaScript `TypeError` crash by an `Option`
result (`none` = crash).  Machine strings are `String`/`List Char`.
-/

namespace DigoWebPack

/-- A JavaScript number-typed field that may still be `undefined` or `NaN`
(the source never initializes `_hideCount`, so all three states are
reachable). -/
inductive JsNum where
  | undefined
  | nan
  | int (n : Int)
  deriving DecidableEq, Repr

/-- `x++` on a JavaScript number field: `undefined` coerces to `NaN`,
`NaN` stays `NaN`. -/
def jsInc : JsNum → JsNum
  | .undefined => .nan
  | .nan => .nan
  | .int n => .int (n + 1)

/-- `x--` on a JavaScript number field. -/
def jsDec : JsNum → JsNum
  | .undefined => .nan
  | .nan => .nan
  | .int n => .int (n - 1)

/-- Strict equality test `x === 0`: only the actual number `0` passes;
`undefined === 0` and `NaN === 0` are both `false`. -/
def jsIsZero : JsNum → Bool
  | .int 0 => true
  | _ => false

/-- `startIndex >= this._lastReplacementEndIndex` where the field may be
`undefined`: any relational comparison with `undefined` is `false`. -/
def jsGe (i : Nat) (e : Option Nat) : Bool :=
  match e with
  | none => false
  | some e => i ≥ e

/-- The data slot of a replacement record: a literal string, a nested
module (by id), or a deferred closure (modelled by its write-time
result). -/
inductive RepData where
  | str (s : String)
  | mod (id : Nat)
  | fn (s : String)
  deriving DecidableEq, Repr

/-- One replacement record `{startIndex, endIndex, data}`. -/
structure Rep where
  startIndex : Nat
  endIndex : Nat
  data : RepData
  deriving DecidableEq, Repr

/-- The `#if` stack frame kinds (`IfStackItem` in the source). -/
inductive IfStackItem where
  | if_
  | elif
  | else_
  | region
  deriving DecidableEq, Repr

/-- One frame of `_ifStack`. -/
structure IfFrame where
  item : IfStackItem
  value : Bool
  deriving DecidableEq, Repr

/-- The mutable per-module state touched by the replacement store and the
preprocessor: `replacements` and `_lastReplacementEndIndex` start
`undefined` (`none`), `_hideCount` starts `undefined` (`.undefined`). -/
structure ModState where
  content : String
  replacements : Option (List Rep) := none
  lastReplacementEndIndex : Option Nat := none
  hideCount : JsNum := .undefined
  ifStack : List IfFrame := []
  deriving DecidableEq, Repr

/-- The back-scan loop of `replace`: walks `p` down from
`replacements.length`; at each step `r = replacements[p-1]`.  Returns
`none` for the `-1` rejection and `some p` for the insertion index.
Note that when the loop runs off the front (`p = 0`) no overlap check
against the successor is performed, exactly as in the source. -/
def backScan (reps : List Rep) (startIndex endIndex : Nat) : Nat → Option Nat
  | 0 => some 0
  | p + 1 =>
    let r := reps.getD p ⟨0, 0, .str ""⟩
    if startIndex ≥ r.startIndex then
      if startIndex < r.endIndex ∨
          (p + 1 < reps.length ∧ endIndex > (reps.getD (p + 1) ⟨0, 0, .str ""⟩).startIndex) then
        none
      else
        some (p + 1)
    else
      backScan reps startIndex endIndex p

/-- `Module.replace(startIndex, endIndex, data)`.  Fast path: when
`startIndex >= _lastReplacementEndIndex` the record is pushed and the
result of `Array.prototype.push` — the *new length* — is returned.
Slow path: back-scan for the insertion point, reject (`-1`) on detected
overlap, else splice at `p` and return `p`.  (`console.assert` only
logs, so the bounds checks do not gate anything.) -/
def replace (s : ModState) (startIndex endIndex : Nat) (data : RepData) : ModState × Int :=
  let reps := s.replacements.getD []
  if jsGe startIndex s.lastReplacementEndIndex then
    ({ s with
        replacements := some (reps ++ [⟨startIndex, endIndex, data⟩]),
        lastReplacementEndIndex := some endIndex },
      ((reps.length + 1 : Nat) : Int))
  else
    match backScan reps startIndex endIndex reps.length with
    | none => (s, -1)
    | some p =>
      ({ s with
          replacements := some (reps.take p ++ ⟨startIndex, endIndex, data⟩ :: reps.drop p),
          lastReplacementEndIndex := some endIndex },
        ((p : Nat) : Int))

/-- The invariant claimed for the replacement list: every entry has
`startIndex ≤ endIndex` and successive entries satisfy
`prev.endIndex ≤ next.startIndex`. -/
def repOrdered : List Rep → Bool
  | [] => true
  | [r] => r.startIndex ≤ r.endIndex
  | r₁ :: r₂ :: rest =>
    r₁.startIndex ≤ r₁.endIndex && r₁.endIndex ≤ r₂.startIndex && repOrdered (r₂ :: rest)

/-- A fresh module with 30 characters of content (all indices used below
are in bounds, so even the logged `console.assert`s are satisfied). -/
def c1Fresh : ModState := { content := "xxxxxxxxxxxxxxxxxxxxxxxxxxxxxx" }

/-- State after `replace(10, 20, "a")` on a fresh module. -/
def c1Step1 : ModState := (replace c1Fresh 10 20 (.str "a")).1

/-- State after the further call `replace(0, 15, "b")`. -/
def c1Step2 : ModState := (replace c1Step1 0 15 (.str "b")).1

/-- C1: the claim says that after every sequence of `replace` calls the
stored list stays ordered and strictly non-overlapping.  The code
violates it: `replace(10,20)` then `replace(0,15)` are both accepted
(the back-scan runs off the front of the list without checking the new
entry's `endIndex` against its successor), leaving the overlapping list
`[[0,15), [10,20)]`; a third call `replace(16,17)` then lands the fast
path on the stale `_lastReplacementEndIndex = 15` and appends an entry
that also breaks the ordering relative to nothing — the list is already
broken.  This evaluates the embedded `replace` at that failing input. -/
theorem replace_breaks_nonoverlap_invariant :
    (replace c1Step1 0 15 (.str "b")).2 = 0 ∧
    c1Step2.replacements = some [⟨0, 15, .str "b"⟩, ⟨10, 20, .str "a"⟩] ∧
    repOrdered [⟨0, 15, .str "b"⟩, ⟨10, 20, .str "a"⟩] = false := by
  decide

/-- C2: the claim says overlapping calls return `-1` leaving the state
unchanged, and accepted calls return their insertion position.  Both
halves fail on the code: (a) `replace(0,15)` after `replace(10,20)`
overlaps the stored `[10,20)` yet returns `0` and mutates the list;
(b) on the fast path the function returns `Array.prototype.push`'s
result — the new length — so the second of two appends returns `2`
although the entry is inserted at position `1` (contradicting the
function's own doc comment `@return 返回插入的位置`). -/
theorem replace_return_and_overlap_bug :
    ((replace c1Step1 0 15 (.str "b")).2 ≠ -1 ∧
      c1Step2.replacements ≠ c1Step1.replacements ∧
      (∃ r₁ ∈ (c1Step2.replacements.getD []), ∃ r₂ ∈ (c1Step2.replacements.getD []),
        r₁ ≠ r₂ ∧ r₁.startIndex < r₂.endIndex ∧ r₂.startIndex < r₁.endIndex)) ∧
    ((replace (replace c1Fresh 0 0 (.str "a")).1 5 6 (.str "b")).2 = 2 ∧
      ((replace (replace c1Fresh 0 0 (.str "a")).1 5 6 (.str "b")).1.replacements.getD []).length = 2 ∧
      (((replace (replace c1Fresh 0 0 (.str "a")).1 5 6 (.str "b")).1.replacements.getD []).getD 1 ⟨0,0,.str ""⟩).startIndex = 5) := by
  decide

/-- `beiginHiddenRegion(sourceIndex)` (the source's own spelling).  At
depth 0 it pushes a sentinel entry onto `this.replacements` directly —
with no initialization guard, so a still-`undefined` list would be a
`TypeError` (`none`).  The depth test is the strict `=== 0`, and the
counter starts `undefined`. -/
def beiginHiddenRegion (s : ModState) (sourceIndex : Nat) : Option ModState :=
  if jsIsZero s.hideCount then
    match s.replacements with
    | none => none
    | some l =>
      some { s with
        replacements := some (l ++ [⟨sourceIndex, s.content.length + 1, .str ""⟩]),
        hideCount := jsInc s.hideCount }
  else
    some { s with hideCount := jsInc s.hideCount }

/-- Rewrite the `endIndex` of the last element of the list. -/
def updateLastEndIndex : List Rep → Nat → List Rep
  | [], _ => []
  | [r], i => [{ r with endIndex := i }]
  | r :: r' :: rest, i => r :: updateLastEndIndex (r' :: rest) i

/-- `endHiddenRegion(sourceIndex)`: decrement first, then at depth 0
rewrite the open sentinel's `endIndex`.  Indexing
`replacements[replacements.length - 1]` with the list `undefined` or
empty is a `TypeError` (`none`). -/
def endHiddenRegion (s : ModState) (sourceIndex : Nat) : Option ModState :=
  let h := jsDec s.hideCount
  if jsIsZero h then
    match s.replacements with
    | none => none
    | some [] => none
    | some l => some { s with hideCount := h, replacements := some (updateLastEndIndex l sourceIndex) }
  else
    some { s with hideCount := h }

/-- A JavaScript value as produced by macro evaluation. -/
inductive JsVal where
  | undefined
  | null
  | bool (b : Bool)
  | num (n : Int)
  | str (s : String)
  deriving DecidableEq, Repr

/-- A preprocessor expression after lexical classification: either a bare
identifier (note that the source's identifier regular expression
`^[a-zA-Z一-龥_$][\w一-龥$]*$` also matches the keywords
`false`, `true`, …, which therefore go through `getDefined`), or an
identifier-free expression whose `eval` result is a literal value. -/
inductive MacroExpr where
  | ident (name : String)
  | lit (v : JsVal)
  deriving DecidableEq, Repr

/-- `getDefined(name)`: `options.define[name]`, `undefined` when the name
is absent. -/
def getDefined (defines : String → Option JsVal) (name : String) : JsVal :=
  (defines name).getD .undefined -- undefined when the macro is not in the table

/-- `resolveMacro`: a bare identifier returns its defined value;
otherwise the expression (identifier-free here) is handed to `eval`,
which for a literal yields the literal's value. -/
def resolveMacro (defines : String → Option JsVal) : MacroExpr → JsVal
  | .ident n => getDefined defines n
  | .lit v => v

/-- First character of the source's identifier test (ASCII part). -/
def isJsIdentStart (c : Char) : Bool :=
  c.isAlpha || c = '_' || c = '$' || (0x4e00 ≤ c.toNat && c.toNat ≤ 0x9fa5)

/-- Subsequent characters of the source's identifier test (ASCII part;
`\w` is letters, digits and underscore). -/
def isJsIdentChar (c : Char) : Bool :=
  c.isAlphanum || c = '_' || c = '$' || (0x4e00 ≤ c.toNat && c.toNat ≤ 0x9fa5)

/-- Whether the whole string matches the identifier regular expression. -/
def isJsIdentifier (s : String) : Bool :=
  match s.data with
  | [] => false
  | c :: rest => isJsIdentStart c && rest.all isJsIdentChar

/-- Value of a decimal numeral. -/
def digitsToNat (l : List Char) : Nat :=
  l.foldl (fun acc c => acc * 10 + (c.toNat - '0'.toNat)) 0

/-- Lexical bridge from the textual `#if` argument to a `MacroExpr`:
identifiers go to the `getDefined` path, plain decimal numerals (such as
`0`) evaluate to themselves; other expression syntax is out of scope. -/
def macroExprOfString (s : String) : Option MacroExpr :=
  if isJsIdentifier s then some (.ident s)
  else if !s.data.isEmpty && s.data.all Char.isDigit then
    some (.lit (.num (digitsToNat s.data)))
  else none

/-- `resolveIfDirective`: evaluate the expression, take
`value = (result !== false)`, push an `if` frame, and when `!value` open
a hidden region. -/
def resolveIfDirective (defines : String → Option JsVal) (s : ModState) (sourceIndex : Nat)
    (expr : MacroExpr) : Option ModState :=
  let value := resolveMacro defines expr != JsVal.bool false
  let s := { s with ifStack := ⟨.if_, value⟩ :: s.ifStack }
  if value then some s else beiginHiddenRegion s sourceIndex

/-- `resolveRegionDirective`: `value` is true unless `options.region`
exists and maps the (trimmed) name to exactly `false`. -/
def resolveRegionDirective (regionOpts : Option (String → Option Bool)) (s : ModState)
    (sourceIndex : Nat) (name : String) : Option ModState :=
  let value :=
    match regionOpts with
    | none => true
    | some f => f name.trim != some false
  let s := { s with ifStack := ⟨.region, value⟩ :: s.ifStack }
  if value then some s else beiginHiddenRegion s sourceIndex

/-- The trailing loop of `resolveEndIfDirective`: keep shifting frames
while the top is an auto-appended `elif`, closing the hidden region of
each false one.  The stack is passed explicitly to drive the
recursion; it always equals `s.ifStack`. -/
def popElifFrames (closeIndex : Nat) : List IfFrame → ModState → Option ModState
  | [], s => some s
  | f :: rest, s =>
    if f.item = .elif then
      let s := { s with ifStack := rest }
      if f.value then popElifFrames closeIndex rest s
      else
        match endHiddenRegion s closeIndex with
        | none => none
        | some s => popElifFrames closeIndex rest s
    else some s

/-- `resolveEndIfDirective`: mismatch (empty stack or top not
`if`/`else`) is only a warning and leaves the state unchanged; otherwise
shift the frame, close its hidden region when false, then pop the
auto-appended `elif` frames. -/
def resolveEndIfDirective (s : ModState) (sourceIndex sourceLen : Nat) : Option ModState :=
  match s.ifStack with
  | [] => some s
  | f :: rest =>
    if f.item = .if_ ∨ f.item = .else_ then
      let s := { s with ifStack := rest }
      let step := if f.value then some s else endHiddenRegion s (sourceIndex + sourceLen)
      match step with
      | none => none
      | some s => popElifFrames (sourceIndex + sourceLen) s.ifStack s
    else some s

/-- `String.prototype.substring(a, b)`: clamp both ends to the length and
swap them when out of order. -/
def jsSubstring (c : List Char) (a b : Nat) : List Char :=
  let a := min a c.length
  let b := min b c.length
  (c.take (max a b)).drop (min a b)

/-- The write-time value of one replacement: a literal is written
verbatim, a deferred closure is written as its result, a nested module
as that module's (already composed) output, supplied by `lookup`. -/
def repDataStr (lookup : Nat → String) : RepData → String
  | .str s => s
  | .fn s => s
  | .mod id => lookup id

/-- The sweep of `writeModule`: emit the plain text between the cursor
and the next replacement, then the replacement's value, advancing the
cursor to its `endIndex`; finally emit the tail. -/
def writeModuleGo (lookup : Nat → String) (content : List Char) : List Rep → Nat → List Char
  | [], p => if content.length > p then content.drop p else []
  | r :: rest, p =>
    (if r.startIndex > p then jsSubstring content p r.startIndex else []) ++
      (repDataStr lookup r.data).data ++
      writeModuleGo lookup content rest r.endIndex

/-- `writeModule`: a module with no replacement records is emitted
verbatim; otherwise the replacement sweep runs from cursor 0. -/
def writeModule (lookup : Nat → String) (s : ModState) : String :=
  match s.replacements with
  | none => s.content
  | some [] => s.content
  | some reps => String.mk (writeModuleGo lookup s.content.data reps 0)

/-- The module whose content is `A/*#if 0*/B/*#endif*/C`: the first
comment spans `[1,10)` with the directive `#if 0` at index 3, `B` is at
index 10, the second comment spans `[11,21)` with `#endif` at 13, `C` is
at index 21. -/
def c3Fresh : ModState := { content := "A/*#if 0*/B/*#endif*/C" }

/-- The state after the exact operations the scanner performs on that
content: dispatch `#if 0`, delete the first comment, dispatch `#endif`,
delete the second comment.  No macro is defined. -/
def c3Final : Option ModState :=
  (resolveIfDirective (fun _ => none) c3Fresh 3 (.lit (.num 0))).bind fun s =>
    (resolveEndIfDirective ((replace s 1 10 (.str "")).1) 13 6).map fun s =>
      (replace s 11 21 (.str "")).1

/-- C3: the claim says `#if 0 … #endif` hides the bracketed region.  On
the code the expression `0` is *truthy* (`0 !== false`), so no hidden
region is opened and the region `B` is emitted: the composed output is
`ABC`, not the `AC` the claim requires.  (`macroExprOfString` confirms
that the textual argument `0` is classified as the numeric literal, not
an identifier.) -/
theorem if_zero_region_is_emitted :
    macroExprOfString "0" = some (.lit (.num 0)) ∧
    c3Final.map (writeModule fun _ => "") = some "ABC" ∧
    c3Final.map (writeModule fun _ => "") ≠ some "AC" := by
  refine ⟨by decide, by decide, by decide⟩

/-- C3 (amended): with `#if 0`, the truthiness rule `only false is
false` makes the guard true, so the `#if`/`#endif` pair leaves the
replacement list — and hence the emitted bytes — untouched: the
bracketed region is kept, not hidden. -/
theorem if_zero_keeps_region (defines : String → Option JsVal) (s : ModState)
    (i j len : Nat) (h : s.ifStack = []) :
    ∃ s₁ s₂, resolveIfDirective defines s i (.lit (.num 0)) = some s₁ ∧
      s₁.replacements = s.replacements ∧
      resolveEndIfDirective s₁ j len = some s₂ ∧
      s₂.replacements = s.replacements ∧ s₂.ifStack = [] := by
  refine ⟨{ s with ifStack := [⟨.if_, true⟩] }, { s with ifStack := [] }, ?_, rfl, ?_, rfl, rfl⟩
  · simp [resolveIfDirective, resolveMacro, h]
  · simp [resolveEndIfDirective, popElifFrames, h]

/-- Witness for `if_zero_keeps_region` at a concrete module. -/
theorem if_zero_keeps_region_witness :
    ({ content := "x" } : ModState).ifStack = [] ∧
    ∃ s₁ s₂, resolveIfDirective (fun _ => none) { content := "x" } 0 (.lit (.num 0)) = some s₁ ∧
      s₁.replacements = ({ content := "x" } : ModState).replacements ∧
      resolveEndIfDirective s₁ 1 2 = some s₂ ∧
      s₂.replacements = ({ content := "x" } : ModState).replacements ∧ s₂.ifStack = [] :=
  ⟨rfl, if_zero_keeps_region (fun _ => none) { content := "x" } 0 1 2 rfl⟩

/-- C9: the claim says that with `replacements` still uninitialized a
first `beiginHiddenRegion` (from a false `#if` heading the file)
dereferences the undefined array and crashes.  It does not: `_hideCount`
is itself never initialized, `undefined === 0` is `false`, so the
depth-0 branch — the only place that touches `this.replacements` — is
skipped; the call returns normally having set the counter to `NaN` and
recorded nothing.  Here the very first parsed construct of a fresh
module is `#if DEBUG` with `DEBUG` defined `false`: no crash (`some`),
and no hidden-region entry. -/
theorem first_hidden_region_does_not_crash :
    resolveIfDirective (fun n => if n = "DEBUG" then some (.bool false) else none)
        { content := "A/*#if DEBUG*/B/*#endif*/C" } 3 (.ident "DEBUG") =
      some { content := "A/*#if DEBUG*/B/*#endif*/C",
             replacements := none,
             lastReplacementEndIndex := none,
             hideCount := .nan,
             ifStack := [⟨.if_, false⟩] } := by
  decide

/-- C9 (amended): whenever the depth counter is still `undefined` — its
initial value, since nothing ever initializes it — `beiginHiddenRegion`
does not crash and does not push a sentinel, whether or not
`replacements` is initialized: it only turns the counter into `NaN`
(after which no later call can ever satisfy `=== 0` either, so the
hidden region is silently lost rather than crashing). -/
theorem beiginHiddenRegion_undef_counter (s : ModState) (i : Nat) (h : s.hideCount = .undefined) :
    beiginHiddenRegion s i = some { s with hideCount := .nan } := by
  simp [beiginHiddenRegion, h, jsIsZero, jsInc]

/-- Witness for `beiginHiddenRegion_undef_counter` on a fresh module. -/
theorem beiginHiddenRegion_undef_counter_witness :
    ({ content := "y" } : ModState).hideCount = .undefined ∧
    beiginHiddenRegion { content := "y" } 5 =
      some { ({ content := "y" } : ModState) with hideCount := .nan } :=
  ⟨rfl, beiginHiddenRegion_undef_counter { content := "y" } 5 rfl⟩

/-- The include relation of the whole module graph: the edge `(a, b)`
states that module `a` has `b` in its `includes` array. -/
abbrev IncludeGraph := List (Nat × Nat)

/-- `a.includes`: the modules directly included by `a`. -/
def includesOf (g : IncludeGraph) (m : Nat) : List Nat :=
  (g.filter fun e => e.1 == m).map (·.2)

/-- `hasIncluded(module)` — `this === module`, else recurse into every
direct include.  The source recursion terminates on the live object
graph because successful `include` calls keep it acyclic; the embedding
makes the recursion depth explicit as fuel. -/
def hasIncludedFuel (g : IncludeGraph) : Nat → Nat → Nat → Bool
  | 0, _, _ => false
  | fuel + 1, a, b => a == b || (includesOf g a).any fun c => hasIncludedFuel g fuel c b

/-- `hasIncluded` with enough fuel for any repetition-free path. -/
def hasIncluded (g : IncludeGraph) (a b : Nat) : Bool :=
  hasIncludedFuel g (g.length + 1) a b

/-- `include(source, sourceIndex, module, name)`: refused (`false`) when
`module.hasIncluded(this)`; otherwise the edge is recorded without
duplicates and the call returns `true`. -/
def includeModule (g : IncludeGraph) (a b : Nat) : IncludeGraph × Bool :=
  if hasIncluded g b a then (g, false)
  else (if (a, b) ∈ g then g else g ++ [(a, b)], true)

/-- Reflexive-transitive closure of the include relation. -/
def Reaches (g : IncludeGraph) (a b : Nat) : Prop :=
  Relation.ReflTransGen (fun x y => (x, y) ∈ g) a b

/-- An explicit include path from `a` to `b`; the list holds the
vertices after `a`, ending with `b` when nonempty. -/
inductive IncPath (g : IncludeGraph) : Nat → Nat → List Nat → Prop
  | nil (a : Nat) : IncPath g a a []
  | cons {a c b : Nat} {l : List Nat} : (a, c) ∈ g → IncPath g c b l → IncPath g a b (c :: l)

theorem mem_includesOf {g : IncludeGraph} {a c : Nat} :
    c ∈ includesOf g a ↔ (a, c) ∈ g := by
  constructor
  · intro h
    simp only [includesOf, List.mem_map, List.mem_filter, beq_iff_eq] at h
    obtain ⟨e, ⟨he, h1⟩, h2⟩ := h
    have : e = (a, c) := by
      cases e
      simp_all
    rwa [this] at he
  · intro h
    simp only [includesOf, List.mem_map, List.mem_filter, beq_iff_eq]
    exact ⟨(a, c), ⟨h, rfl⟩, rfl⟩

theorem IncPath.append {g : IncludeGraph} {a b c : Nat} {l₁ l₂ : List Nat}
    (h₁ : IncPath g a b l₁) (h₂ : IncPath g b c l₂) : IncPath g a c (l₁ ++ l₂) := by
  induction h₁ with
  | nil => exact h₂
  | cons e _ ih => exact .cons e (ih h₂)

theorem reaches_iff_exists_path {g : IncludeGraph} {a b : Nat} :
    Reaches g a b ↔ ∃ l, IncPath g a b l := by
  constructor
  · intro h
    induction h with
    | refl => exact ⟨[], .nil a⟩
    | tail _ e ih =>
      obtain ⟨l, hl⟩ := ih
      exact ⟨l ++ [_], hl.append (.cons e (.nil _))⟩
  · rintro ⟨l, hl⟩
    induction hl with
    | nil => exact .refl
    | cons e _ ih => exact .head e ih

theorem IncPath.shorten_mem {g : IncludeGraph} {x b a : Nat} {l : List Nat}
    (h : IncPath g x b l) (ha : a ∈ l) :
    ∃ l', IncPath g a b l' ∧ l'.length < l.length ∧ l' ⊆ l := by
  induction h with
  | nil => cases ha
  | @cons x c b l e p ih =>
    rcases List.mem_cons.mp ha with rfl | ha
    · exact ⟨l, p, by simp, fun v hv => List.mem_cons_of_mem _ hv⟩
    · obtain ⟨l', hp, hlen, hsub⟩ := ih ha
      exact ⟨l', hp, Nat.lt_trans hlen (by simp),
        fun v hv => List.mem_cons_of_mem _ (hsub hv)⟩

theorem IncPath.to_nodup {g : IncludeGraph} :
    ∀ n (l : List Nat), l.length ≤ n → ∀ a b, IncPath g a b l →
      ∃ l', IncPath g a b l' ∧ l'.Nodup ∧ a ∉ l' ∧ l' ⊆ l := by
  intro n
  induction n with
  | zero =>
    intro l hl a b h
    cases h with
    | nil => exact ⟨[], .nil a, by simp, by simp, by simp⟩
    | cons e p => simp at hl
  | succ n ih =>
    intro l hl a b h
    by_cases ha : a ∈ l
    · obtain ⟨l₂, hp, hlen, hsub⟩ := h.shorten_mem ha
      obtain ⟨l', hp', hd, hna, hsub'⟩ := ih l₂ (by omega) a b hp
      exact ⟨l', hp', hd, hna, fun v hv => hsub (hsub' hv)⟩
    · cases h with
      | nil => exact ⟨[], .nil a, by simp, by simp, by simp⟩
      | @cons _ c _ lt e p =>
        obtain ⟨l', hp', hd, hnc, hsub⟩ := ih lt (by simpa using hl) c b p
        have hac : a ≠ c := fun hac => ha (hac ▸ List.mem_cons_self _ _)
        have hal' : a ∉ l' := fun hv => ha (List.mem_cons_of_mem _ (hsub hv))
        refine ⟨c :: l', .cons e hp', List.nodup_cons.mpr ⟨hnc, hd⟩, ?_, ?_⟩
        · simp [hac, hal']
        · intro v hv
          rcases List.mem_cons.mp hv with rfl | hv
          · exact List.mem_cons_self _ _
          · exact List.mem_cons_of_mem _ (hsub hv)

theorem IncPath.subset_targets {g : IncludeGraph} {a b : Nat} {l : List Nat}
    (h : IncPath g a b l) : l ⊆ g.map Prod.snd := by
  induction h with
  | nil => simp
  | @cons x c y lt e p ih =>
    intro v hv
    rcases List.mem_cons.mp hv with rfl | hv
    · exact List.mem_map.mpr ⟨(x, v), e, rfl⟩
    · exact ih hv

theorem hasIncludedFuel_mono {g : IncludeGraph} :
    ∀ {f f' a b}, f ≤ f' → hasIncludedFuel g f a b = true → hasIncludedFuel g f' a b = true := by
  intro f
  induction f with
  | zero => intro f' a b _ h; simp [hasIncludedFuel] at h
  | succ f ih =>
    intro f' a b hle h
    cases f' with
    | zero => omega
    | succ f' =>
      simp only [hasIncludedFuel, Bool.or_eq_true, List.any_eq_true] at h ⊢
      rcases h with h | ⟨c, hc, h⟩
      · exact Or.inl h
      · exact Or.inr ⟨c, hc, ih (by omega) h⟩

theorem IncPath.to_fuel {g : IncludeGraph} {a b : Nat} {l : List Nat}
    (h : IncPath g a b l) : hasIncludedFuel g (l.length + 1) a b = true := by
  induction h with
  | nil => simp [hasIncludedFuel]
  | @cons x c y lt e p ih =>
    have hstep : hasIncludedFuel g (lt.length + 1 + 1) x y =
        (x == y || (includesOf g x).any fun d => hasIncludedFuel g (lt.length + 1) d y) := rfl
    rw [List.length_cons, hstep]
    simp only [Bool.or_eq_true, List.any_eq_true]
    exact Or.inr ⟨c, mem_includesOf.mpr e, ih⟩

theorem hasIncludedFuel_to_path {g : IncludeGraph} :
    ∀ {f a b}, hasIncludedFuel g f a b = true → ∃ l, IncPath g a b l := by
  intro f
  induction f with
  | zero => intro a b h; simp [hasIncludedFuel] at h
  | succ f ih =>
    intro a b h
    simp only [hasIncludedFuel, Bool.or_eq_true, List.any_eq_true, beq_iff_eq] at h
    rcases h with rfl | ⟨c, hc, h⟩
    · exact ⟨[], .nil a⟩
    · obtain ⟨l, hl⟩ := ih h
      exact ⟨c :: l, .cons (mem_includesOf.mp hc) hl⟩

/-- `hasIncluded` computes exactly the reflexive-transitive closure of
the include relation. -/
theorem hasIncluded_iff_reaches {g : IncludeGraph} {a b : Nat} :
    hasIncluded g a b = true ↔ Reaches g a b := by
  constructor
  · intro h
    obtain ⟨l, hl⟩ := hasIncludedFuel_to_path h
    exact reaches_iff_exists_path.mpr ⟨l, hl⟩
  · intro h
    obtain ⟨l, hl⟩ := reaches_iff_exists_path.mp h
    obtain ⟨l', hp', hd, -, -⟩ := IncPath.to_nodup l.length l le_rfl a b hl
    have hlen : l'.length ≤ g.length := by
      have := (hd.subperm hp'.subset_targets).length_le
      simpa using this
    exact hasIncludedFuel_mono (by omega) hp'.to_fuel

/-- No cycle through two distinct modules. -/
def Acyclic (g : IncludeGraph) : Prop :=
  ∀ m n, Reaches g m n → Reaches g n m → m = n

theorem reaches_append_edge {g : IncludeGraph} {a b m n : Nat}
    (hba : ¬ Reaches g b a) (h : Reaches (g ++ [(a, b)]) m n) :
    Reaches g m n ∨ (Reaches g m a ∧ Reaches g b n) := by
  obtain ⟨l, hl⟩ := reaches_iff_exists_path.mp h
  clear h
  induction hl with
  | nil => exact Or.inl .refl
  | @cons x c y lt e p ih =>
    rcases List.mem_append.mp e with e | e
    · rcases ih with h' | ⟨h₁, h₂⟩
      · exact Or.inl (.head e h')
      · exact Or.inr ⟨.head e h₁, h₂⟩
    · simp only [List.mem_singleton, Prod.mk.injEq] at e
      obtain ⟨rfl, rfl⟩ := e
      rcases ih with h' | ⟨h₁, h₂⟩
      · exact Or.inr ⟨.refl, h'⟩
      · exact absurd h₁ hba

theorem Acyclic.insert {g : IncludeGraph} {a b : Nat}
    (hg : Acyclic g) (hba : ¬ Reaches g b a) : Acyclic (g ++ [(a, b)]) := by
  intro m n h₁ h₂
  rcases reaches_append_edge hba h₁ with h₁ | ⟨h₁, h₁'⟩ <;>
    rcases reaches_append_edge hba h₂ with h₂ | ⟨h₂, h₂'⟩
  · exact hg m n h₁ h₂
  · exact absurd ((h₂'.trans h₁).trans h₂) hba
  · exact absurd ((h₁'.trans h₂).trans h₁) hba
  · exact absurd (h₂'.trans h₁) hba

/-- The graphs reachable from the empty graph by `include` calls
(refused calls leave the graph unchanged and are covered too). -/
inductive IncludeBuilt : IncludeGraph → Prop
  | nil : IncludeBuilt []
  | step (g : IncludeGraph) (a b : Nat) : IncludeBuilt g → IncludeBuilt (includeModule g a b).1

theorem IncludeBuilt.acyclic {g : IncludeGraph} (h : IncludeBuilt g) : Acyclic g := by
  induction h with
  | nil =>
    intro m n h₁ _
    cases h₁ with
    | refl => rfl
    | tail _ e => cases e
  | step g a b _ ih =>
    unfold includeModule
    split
    · exact ih
    · split
      · exact ih
      · exact ih.insert fun hr => by simp_all [hasIncluded_iff_reaches]

/-- C4: `include` returns `false` exactly when the target already
(reflexively-transitively) includes the caller, `hasIncluded` computes
exactly that closure, and every graph built by `include` calls is
acyclic: a module reachable from a distinct module never reaches back. -/
theorem include_cycle_detection :
    (∀ (g : IncludeGraph) (a b : Nat), hasIncluded g a b = true ↔ Reaches g a b) ∧
    (∀ (g : IncludeGraph) (a b : Nat), (includeModule g a b).2 = false ↔ Reaches g b a) ∧
    (∀ g : IncludeGraph, IncludeBuilt g →
      ∀ m n, m ≠ n → Reaches g m n → ¬ Reaches g n m) := by
  refine ⟨fun g a b => hasIncluded_iff_reaches, fun g a b => ?_,
    fun g hb m n hmn h₁ h₂ => hmn (hb.acyclic m n h₁ h₂)⟩
  rw [← hasIncluded_iff_reaches]
  unfold includeModule
  split <;> simp_all

/-- Witness for `include_cycle_detection`: after the successful call
`include [] 0 1` the graph reaches `1` from `0` but (by the theorem) not
back. -/
theorem include_cycle_detection_witness :
    IncludeBuilt (includeModule [] 0 1).1 ∧ (0 : Nat) ≠ 1 ∧
    Reaches (includeModule [] 0 1).1 0 1 ∧ ¬ Reaches (includeModule [] 0 1).1 1 0 :=
  have hb : IncludeBuilt (includeModule [] 0 1).1 := .step [] 0 1 .nil
  have h01 : Reaches (includeModule [] 0 1).1 0 1 :=
    Relation.ReflTransGen.single (by decide)
  ⟨hb, by decide, h01, include_cycle_detection.2.2 _ hb 0 1 (by decide) h01⟩

/-- The per-module `requires`/`externals` arrays of the whole module
graph, as association lists (a module absent from the list has an empty
array). -/
structure DepGraph where
  req : List (Nat × List Nat)
  ext : List (Nat × List Nat)
  deriving Repr

/-- `m.requires`. -/
def requiresOf (g : DepGraph) (m : Nat) : List Nat :=
  ((g.req.find? fun p => p.1 == m).map (·.2)).getD []

/-- `m.externals`. -/
def externalsOf (g : DepGraph) (m : Nat) : List Nat :=
  ((g.ext.find? fun p => p.1 == m).map (·.2)).getD []

/-- `_addToExternalList(target)`: skip if already present, else append
and recurse into the module's requires and externals.  The source
recursion terminates because every nested call first appends a new
module to `target`; the embedding carries that depth bound as fuel. -/
def addToExternalList (g : DepGraph) : Nat → Nat → List Nat → List Nat
  | 0, _, target => target
  | fuel + 1, m, target =>
    if m ∈ target then target
    else
      let target := target ++ [m]
      let target := (requiresOf g m).foldl (fun t c => addToExternalList g fuel c t) target
      (externalsOf g m).foldl (fun t c => addToExternalList g fuel c t) target

/-- A fuel bound exceeding the number of modules mentioned anywhere in
the graph (so the fueled recursions never run dry). -/
def graphFuel (g : DepGraph) : Nat :=
  (g.req.foldl (fun n p => n + 1 + p.2.length) 0) +
    (g.ext.foldl (fun n p => n + 1 + p.2.length) 0) + 1

/-- `getAllExternals()`: fold `_addToExternalList` over the direct
externals. -/
def getAllExternals (g : DepGraph) (m : Nat) : List Nat :=
  (externalsOf g m).foldl (fun t c => addToExternalList g (graphFuel g) c t) []

/-- `_addToRequireList(target, externals)`: the accumulator pairs the
output list with the visited-set (which starts as the external closure
and doubles as the termination guard); a visited module is skipped,
otherwise it is marked, its requires are traversed, and it is appended
*after* them (post-order). -/
def addToRequireList (g : DepGraph) : Nat → Nat → List Nat × List Nat → List Nat × List Nat
  | 0, _, te => te
  | fuel + 1, m, te =>
    if m ∈ te.2 then te
    else
      let te := (te.1, te.2 ++ [m])
      let te := (requiresOf g m).foldl (fun te c => addToRequireList g fuel c te) te
      (te.1 ++ [m], te.2)

/-- `getAllRequires()`: run the post-order traversal with the external
closure as the initial visited-set. -/
def getAllRequires (g : DepGraph) (m : Nat) : List Nat :=
  (addToRequireList g (graphFuel g) m ([], getAllExternals g m)).1

/-- Growth property of `_addToRequireList`: the output list only grows,
by records that are simultaneously added to the visited-set and were not
in it before — in particular the appended block is duplicate-free and
disjoint from the initial visited-set.  Holds for every fuel value. -/
theorem addToRequireList_spec (g : DepGraph) :
    ∀ (fuel m : Nat) (t e : List Nat),
      ∃ d, (addToRequireList g fuel m (t, e)).1 = t ++ d ∧
        e ⊆ (addToRequireList g fuel m (t, e)).2 ∧
        d.Nodup ∧
        (∀ x ∈ d, x ∈ (addToRequireList g fuel m (t, e)).2) ∧
        (∀ x ∈ d, x ∉ e) := by
  intro fuel
  induction fuel with
  | zero =>
    intro m t e
    exact ⟨[], by simp [addToRequireList], by simp [addToRequireList], by simp, by simp, by simp⟩
  | succ fuel ih =>
    have hfold : ∀ (l : List Nat) (t e : List Nat),
        ∃ d, (l.foldl (fun te c => addToRequireList g fuel c te) (t, e)).1 = t ++ d ∧
          e ⊆ (l.foldl (fun te c => addToRequireList g fuel c te) (t, e)).2 ∧
          d.Nodup ∧
          (∀ x ∈ d, x ∈ (l.foldl (fun te c => addToRequireList g fuel c te) (t, e)).2) ∧
          (∀ x ∈ d, x ∉ e) := by
      intro l
      induction l with
      | nil => intro t e; exact ⟨[], by simp, by simp, by simp, by simp, by simp⟩
      | cons c cs ihl =>
        intro t e
        obtain ⟨d₁, h₁, h₂, h₃, h₄, h₅⟩ := ih c t e
        obtain ⟨d₂, g₁, g₂, g₃, g₄, g₅⟩ :=
          ihl (addToRequireList g fuel c (t, e)).1 (addToRequireList g fuel c (t, e)).2
        refine ⟨d₁ ++ d₂, ?_, ?_, ?_, ?_, ?_⟩
        · simp only [List.foldl_cons]
          rw [← Prod.mk.eta (p := addToRequireList g fuel c (t, e))] at g₁ ⊢
          rw [g₁, h₁, List.append_assoc]
        · simp only [List.foldl_cons]
          rw [← Prod.mk.eta (p := addToRequireList g fuel c (t, e))] at g₂ ⊢
          exact h₂.trans g₂
        · refine h₃.append g₃ fun x hx₁ hx₂ => ?_
          exact g₅ x hx₂ (h₄ x hx₁)
        · intro x hx
          simp only [List.foldl_cons]
          rw [← Prod.mk.eta (p := addToRequireList g fuel c (t, e))] at g₂ g₄ ⊢
          rcases List.mem_append.mp hx with hx | hx
          · exact g₂ (h₄ x hx)
          · exact g₄ x hx
        · intro x hx
          rcases List.mem_append.mp hx with hx | hx
          · exact h₅ x hx
          · exact fun hxe => g₅ x hx (h₂ hxe)
    intro m t e
    by_cases hm : m ∈ e
    · exact ⟨[], by simp [addToRequireList, hm], by simp [addToRequireList, hm],
        by simp, by simp, by simp⟩
    · obtain ⟨d₁, h₁, h₂, h₃, h₄, h₅⟩ := hfold (requiresOf g m) t (e ++ [m])
      have hme : m ∈ e ++ [m] := by simp
      refine ⟨d₁ ++ [m], ?_, ?_, ?_, ?_, ?_⟩
      · simp only [addToRequireList, hm, if_neg, ite_false]
        rw [h₁, List.append_assoc]
      · simp only [addToRequireList, hm, if_neg, ite_false]
        exact fun x hx => h₂ (by simp [hx])
      · refine h₃.append (by simp) fun x hx₁ hx₂ => ?_
        simp only [List.mem_singleton] at hx₂
        exact h₅ x hx₁ (hx₂ ▸ hme)
      · intro x hx
        simp only [addToRequireList, hm, if_neg, ite_false]
        rcases List.mem_append.mp hx with hx | hx
        · exact h₄ x hx
        · simp only [List.mem_singleton] at hx
          exact hx ▸ h₂ hme
      · intro x hx
        rcases List.mem_append.mp hx with hx | hx
        · exact fun hxe => h₅ x hx (by simp [hxe])
        · simp only [List.mem_singleton] at hx
          exact hx ▸ hm

/-- When the module itself is not already excluded, one step of the
traversal appends it last. -/
theorem addToRequireList_self_last (g : DepGraph) (fuel m : Nat) (e : List Nat)
    (h : m ∉ e) :
    ∃ l, (addToRequireList g (fuel + 1) m ([], e)).1 = l ++ [m] := by
  refine ⟨((requiresOf g m).foldl (fun te c => addToRequireList g fuel c te) ([], e ++ [m])).1, ?_⟩
  simp [addToRequireList, h]

/-- The externals-propagation scenario of the claim: `a(=0) requires
b(=1)`, `b requires c(=2)`, and `a.external(b)`. -/
def gSticky : DepGraph := ⟨[(0, [1]), (1, [2])], [(0, [1])]⟩

/-- A graph in which module `0` lands in its own external closure:
`0.external(1)` while `1.requires(0)`. -/
def gSelfExt : DepGraph := ⟨[(1, [0])], [(0, [1])]⟩

/-- C5 (counterexample): the claim's "M itself appears last" fails when
`M` is inside its own external closure — then `getAllRequires()` is
empty.  Here `0.external(1)` and `1.require(0)` put `0` into
`getAllExternals(0) = [1, 0]`, so `getAllRequires(0) = []` and `0` is
not its last member. -/
theorem getAllRequires_self_not_last :
    getAllExternals gSelfExt 0 = [1, 0] ∧
    getAllRequires gSelfExt 0 = [] ∧
    (getAllRequires gSelfExt 0).getLast? ≠ some 0 := by
  decide

/-- C5 (amended): `getAllRequires()` returns each module at most once
and none of its members is in `getAllExternals()`; *provided the module
is not in its own external closure*, it appears last (when it is, the
list is empty as shown by the counterexample).  Externals are sticky:
with `a requires b requires c` and `a.external(b)`,
`a.getAllRequires() = [a]`. -/
theorem getAllRequires_spec :
    (∀ (g : DepGraph) (m : Nat), (getAllRequires g m).Nodup) ∧
    (∀ (g : DepGraph) (m x : Nat), x ∈ getAllRequires g m → x ∉ getAllExternals g m) ∧
    (∀ (g : DepGraph) (m : Nat), m ∉ getAllExternals g m →
      ∃ l, getAllRequires g m = l ++ [m]) ∧
    getAllRequires gSticky 0 = [0] := by
  refine ⟨fun g m => ?_, fun g m x hx => ?_, fun g m hm => ?_, by decide⟩
  · obtain ⟨d, h₁, -, h₃, -, -⟩ :=
      addToRequireList_spec g (graphFuel g) m [] (getAllExternals g m)
    unfold getAllRequires
    rw [h₁]
    simpa using h₃
  · obtain ⟨d, h₁, -, -, -, h₅⟩ :=
      addToRequireList_spec g (graphFuel g) m [] (getAllExternals g m)
    unfold getAllRequires at hx
    rw [h₁] at hx
    exact h₅ x (by simpa using hx)
  · exact addToRequireList_self_last g _ m _ hm

/-- Witness for `getAllRequires_spec`: module `0` of the sticky-example
graph is not in its own external closure, so it closes its own require
list. -/
theorem getAllRequires_spec_witness :
    (0 : Nat) ∉ getAllExternals gSticky 0 ∧ ∃ l, getAllRequires gSticky 0 = l ++ [0] :=
  ⟨by decide, getAllRequires_spec.2.2.1 gSticky 0 (by decide)⟩

/-- The `requires`/`externals` arrays of a single module (both start
uninitialized, which behaves as empty). -/
structure ReqExtState where
  requiresList : List Nat := []
  externalsList : List Nat := []
  deriving DecidableEq, Repr

/-- `require(source, sourceIndex, module, name)` on module `self`:
self-reference is ignored, duplicates are not pushed. -/
def requireOp (self : Nat) (st : ReqExtState) (m : Nat) : ReqExtState :=
  if m = self then st
  else if m ∈ st.requiresList then st
  else { st with requiresList := st.requiresList ++ [m] }

/-- `external(source, sourceIndex, module, name)` on module `self`:
pushed only when distinct from `self` and not already present. -/
def externalOp (self : Nat) (st : ReqExtState) (m : Nat) : ReqExtState :=
  if m ≠ self ∧ m ∉ st.externalsList then
    { st with externalsList := st.externalsList ++ [m] }
  else st

/-- All states reachable by any sequence of `require`/`external` calls
on module `self`. -/
inductive ReqExtBuilt (self : Nat) : ReqExtState → Prop
  | nil : ReqExtBuilt self {}
  | require (st : ReqExtState) (m : Nat) :
      ReqExtBuilt self st → ReqExtBuilt self (requireOp self st m)
  | external (st : ReqExtState) (m : Nat) :
      ReqExtBuilt self st → ReqExtBuilt self (externalOp self st m)

/-- C6: after any sequence of `require` and `external` calls, the module
is in neither of its own lists and neither list holds duplicates. -/
theorem requires_externals_invariant (self : Nat) (st : ReqExtState)
    (h : ReqExtBuilt self st) :
    self ∉ st.requiresList ∧ self ∉ st.externalsList ∧
    st.requiresList.Nodup ∧ st.externalsList.Nodup := by
  induction h with
  | nil => simp [ReqExtState.requiresList, ReqExtState.externalsList]
  | require st m _ ih =>
    obtain ⟨h₁, h₂, h₃, h₄⟩ := ih
    unfold requireOp
    split
    · exact ⟨h₁, h₂, h₃, h₄⟩
    · split
      · exact ⟨h₁, h₂, h₃, h₄⟩
      · refine ⟨?_, h₂, ?_, h₄⟩
        · simp_all
          omega
        · simp_all [List.nodup_append]
  | external st m _ ih =>
    obtain ⟨h₁, h₂, h₃, h₄⟩ := ih
    unfold externalOp
    split
    · refine ⟨h₁, ?_, h₃, ?_⟩
      · simp_all
        omega
      · simp_all [List.nodup_append]
    · exact ⟨h₁, h₂, h₃, h₄⟩

/-- Witness for `requires_externals_invariant`: the state after
`require(1)`, `require(0)` (self, ignored), `external(2)`,
`external(2)` (duplicate, ignored) on module `0`. -/
theorem requires_externals_invariant_witness :
    ReqExtBuilt 0 (externalOp 0 (externalOp 0 (requireOp 0 (requireOp 0 {} 1) 0) 2) 2) ∧
    (0 : Nat) ∉ (externalOp 0 (externalOp 0 (requireOp 0 (requireOp 0 {} 1) 0) 2) 2).requiresList ∧
    (0 : Nat) ∉ (externalOp 0 (externalOp 0 (requireOp 0 (requireOp 0 {} 1) 0) 2) 2).externalsList ∧
    (externalOp 0 (externalOp 0 (requireOp 0 (requireOp 0 {} 1) 0) 2) 2).requiresList.Nodup ∧
    (externalOp 0 (externalOp 0 (requireOp 0 (requireOp 0 {} 1) 0) 2) 2).externalsList.Nodup :=
  have hb : ReqExtBuilt 0 (externalOp 0 (externalOp 0 (requireOp 0 (requireOp 0 {} 1) 0) 2) 2) :=
    .external _ 2 (.external _ 2 (.require _ 0 (.require _ 1 .nil)))
  ⟨hb, (requires_externals_invariant 0 _ hb).1, (requires_externals_invariant 0 _ hb).2.1,
    (requires_externals_invariant 0 _ hb).2.2.1, (requires_externals_invariant 0 _ hb).2.2.2⟩

/-- A JavaScript value as stored in an options object.  Arrays are
objects whose `Array.isArray` flag is set (their `for…in`-visible keys
are the fields); `null` is its own (falsy) value even though
`typeof null === "object"`. -/
inductive JsOpt where
  | undefined
  | null
  | bool (b : Bool)
  | num (n : Int)
  | str (s : String)
  | obj (isArray : Bool) (fields : List (String × JsOpt))
  deriving Repr

/-- `value && typeof value === "object"`: a real object or array
(`null` and all primitives are excluded). -/
def isObjLike : JsOpt → Bool
  | .obj _ _ => true
  | _ => false

/-- `value && typeof value === "object" && !Array.isArray(value)`: the
branch condition of the deep merge. -/
def isPlainObj : JsOpt → Bool
  | .obj false _ => true
  | _ => false

/-- Strict equality against the literal `false` (`c !== false` negated):
only the boolean value `false` passes. -/
def isFalseVal : JsOpt → Bool
  | .bool false => true
  | _ => false

/-- Read `dest[key]` (`undefined` when absent or when `dest` is not an
object). -/
def getField : JsOpt → String → JsOpt
  | .obj _ fs, k => ((fs.find? fun p => p.1 == k).map (·.2)).getD .undefined -- absent key
  | _, _ => .undefined -- property read on a primitive

/-- Update-or-append a key in a field list (JavaScript assignment keeps
the key's original position). -/
def setFields : List (String × JsOpt) → String → JsOpt → List (String × JsOpt)
  | [], k, v => [(k, v)]
  | (k', v') :: rest, k, v =>
    if k' = k then (k, v) :: rest else (k', v') :: setFields rest k v

/-- `dest[key] = value` (silently dropped on a primitive, as in
non-strict mode). -/
def setField : JsOpt → String → JsOpt → JsOpt
  | .obj a fs, k, v => .obj a (setFields fs k v)
  | d, _, _ => d

/-- `copyOptions(dest, src)`: for each key of `src`, a non-array object
value is merged recursively into `dest[key]` — unless `dest[key]` is
exactly `false`, in which case the key is skipped (`continue`); the
recursion target is `dest[key]` itself when it is object-like, else a
fresh `{}`.  Every other value overwrites `dest[key]` wholesale. -/
def copyOptions : JsOpt → JsOpt → JsOpt
  | dest, .obj a ((k, v) :: rest) =>
    let dest' :=
      if isPlainObj v then
        let c := getField dest k
        if isFalseVal c then dest
        else setField dest k (copyOptions (if isObjLike c then c else .obj false []) v)
      else setField dest k v
    copyOptions dest' (.obj a rest)
  | dest, _ => dest
termination_by _ src => sizeOf src
decreasing_by all_goals simp_wf <;> omega

theorem getField_setField (a : Bool) (fs : List (String × JsOpt)) (k : String) (v : JsOpt) :
    getField (setField (.obj a fs) k v) k = v := by
  induction fs with
  | nil => simp [getField, setField, setFields]
  | cons p rest ih =>
    obtain ⟨k', v'⟩ := p
    by_cases hk : k' = k
    · simp [getField, setField, setFields, hk]
    · simp only [setField, setFields, hk, if_false, ite_false]
      simpa [getField, setField, hk] using ih

/-- C7 (counterexample): with `dest = {a: false}` and the override
`{a: {}}` the override value is a non-array object and the destination
value *is* `false`: the claim's "otherwise overwrite" reading demands
`{a: {}}`, but `copyOptions` skips the key (`continue`) and leaves
`{a: false}` untouched. -/
theorem copyOptions_false_dest_not_overwritten :
    copyOptions (.obj false [("a", .bool false)]) (.obj false [("a", .obj false [])]) =
      .obj false [("a", .bool false)] ∧
    getField (copyOptions (.obj false [("a", .bool false)]) (.obj false [("a", .obj false [])]))
        "a" ≠ .obj false [] := by
  have h : copyOptions (.obj false [("a", .bool false)]) (.obj false [("a", .obj false [])]) =
      .obj false [("a", .bool false)] := by
    simp [copyOptions, getField, isPlainObj, isFalseVal]
  refine ⟨h, ?_⟩
  rw [h]
  simp [getField]

/-- C7 (amended): per override key, when the override value is a
non-array object the behaviour splits three ways on the destination
value: exactly `false` → the key is skipped (stays `false`, *not*
overwritten); anything else → recursive merge into the destination
value, which defaults to `{}` when it is not object-like; any other
override value (array or primitive) overwrites wholesale. -/
theorem copyOptions_single_key (da : Bool) (fs : List (String × JsOpt)) (a : Bool)
    (k : String) (v : JsOpt) :
    (isPlainObj v = true → isFalseVal (getField (.obj da fs) k) = true →
      copyOptions (.obj da fs) (.obj a [(k, v)]) = .obj da fs) ∧
    (isPlainObj v = true → isFalseVal (getField (.obj da fs) k) = false →
      getField (copyOptions (.obj da fs) (.obj a [(k, v)])) k =
        copyOptions
          (if isObjLike (getField (.obj da fs) k) then getField (.obj da fs) k
           else .obj false []) v) ∧
    (isPlainObj v = false →
      copyOptions (.obj da fs) (.obj a [(k, v)]) = setField (.obj da fs) k v ∧
      getField (copyOptions (.obj da fs) (.obj a [(k, v)])) k = v) := by
  refine ⟨fun hv hc => ?_, fun hv hc => ?_, fun hv => ⟨?_, ?_⟩⟩
  · simp [copyOptions, hv, hc]
  · simp only [copyOptions, hv, hc, if_true, ite_true, Bool.false_eq_true, if_false, ite_false]
    exact getField_setField da fs k _
  · simp [copyOptions, hv]
  · simp only [copyOptions, hv, Bool.false_eq_true, if_false, ite_false]
    exact getField_setField da fs k v

/-- Witness for `copyOptions_single_key`: a primitive override value is
copied wholesale. -/
theorem copyOptions_single_key_witness :
    isPlainObj (.num 1) = false ∧
    copyOptions (.obj false []) (.obj false [("x", .num 1)]) =
      setField (.obj false []) "x" (.num 1) ∧
    getField (copyOptions (.obj false []) (.obj false [("x", .num 1)])) "x" = .num 1 :=
  have h := (copyOptions_single_key false [] false "x" (.num 1)).2.2 rfl
  ⟨rfl, h.1, h.2⟩


/-- Lowercase hexadecimal digit. -/
def hexChar (n : Nat) : Char :=
  if n < 10 then Char.ofNat ('0'.toNat + n) else Char.ofNat ('a'.toNat + n - 10)

/-- Value of a hexadecimal digit (either case, as accepted by
`JSON.parse` and `eval`). -/
def hexVal (c : Char) : Option Nat :=
  if '0' ≤ c ∧ c ≤ '9' then some (c.toNat - '0'.toNat)
  else if 'a' ≤ c ∧ c ≤ 'f' then some (c.toNat - 'a'.toNat + 10)
  else if 'A' ≤ c ∧ c ≤ 'F' then some (c.toNat - 'A'.toNat + 10)
  else none

/-- How `JSON.stringify` escapes one character inside a double-quoted
JSON string. -/
def jsonEscChar (c : Char) : List Char :=
  if c = '"' then ['\\', '"']
  else if c = '\\' then ['\\', '\\']
  else if c = '\n' then ['\\', 'n']
  else if c = '\r' then ['\\', 'r']
  else if c = '\t' then ['\\', 't']
  else if c = Char.ofNat 8 then ['\\', 'b']
  else if c = Char.ofNat 12 then ['\\', 'f']
  else if c.toNat < 32 then ['\\', 'u', '0', '0', hexChar (c.toNat / 16), hexChar (c.toNat % 16)]
  else [c]

/-- The escaped body of `JSON.stringify(value)`. -/
def jsonEsc : List Char → List Char
  | [] => []
  | c :: rest => jsonEscChar c ++ jsonEsc rest

/-- `.replace(/'/g, "\\'")`. -/
def replSQ : List Char → List Char
  | [] => []
  | c :: rest => if c = '\'' then '\\' :: '\'' :: replSQ rest else c :: replSQ rest

/-- `.replace(/\\"/g, '"')`: left-to-right scan over non-overlapping
backslash-quote pairs. -/
def replBQ : List Char → List Char
  | [] => []
  | [c] => [c]
  | a :: b :: rest =>
    if a = '\\' ∧ b = '"' then '"' :: replBQ rest else a :: replBQ (b :: rest)

/-- `encodeString(value, quote)`. -/
def encodeString (value quote : String) : String :=
  match quote.data with
  | '"' :: _ => String.mk ('"' :: (jsonEsc value.data ++ ['"']))
  | '\'' :: _ => String.mk ('\'' :: (replBQ (replSQ (jsonEsc value.data)) ++ ['\'']))
  | _ =>
    if value.data.contains ')' then String.mk ('"' :: (jsonEsc value.data ++ ['"']))
    else value

/-- Parse four hex digits into the escaped character. -/
def hex4 (h1 h2 h3 h4 : Char) : Option Char :=
  match hexVal h1, hexVal h2, hexVal h3, hexVal h4 with
  | some a, some b, some c, some d => some (Char.ofNat (4096 * a + 256 * b + 16 * c + d))
  | _, _, _, _ => none

/-- Body parser of a double-quoted JSON string (the `JSON.parse`
model): the decoded content plus what follows the closing quote;
`none` is a syntax error.  JSON accepts only the named escapes, `\/`
and `\uXXXX`, and rejects raw control characters. -/
def jsonStrContent : List Char → Option (List Char × List Char)
  | [] => none
  | c :: rest =>
    if c = '"' then some ([], rest)
    else if c = '\\' then
      match rest with
      | [] => none
      | e :: rest =>
        if e = '"' then (jsonStrContent rest).map fun p => ('"' :: p.1, p.2)
        else if e = '\\' then (jsonStrContent rest).map fun p => ('\\' :: p.1, p.2)
        else if e = '/' then (jsonStrContent rest).map fun p => ('/' :: p.1, p.2)
        else if e = 'n' then (jsonStrContent rest).map fun p => ('\n' :: p.1, p.2)
        else if e = 'r' then (jsonStrContent rest).map fun p => ('\r' :: p.1, p.2)
        else if e = 't' then (jsonStrContent rest).map fun p => ('\t' :: p.1, p.2)
        else if e = 'b' then (jsonStrContent rest).map fun p => (Char.ofNat 8 :: p.1, p.2)
        else if e = 'f' then (jsonStrContent rest).map fun p => (Char.ofNat 12 :: p.1, p.2)
        else if e = 'u' then
          match rest with
          | h1 :: h2 :: h3 :: h4 :: rest =>
            match hex4 h1 h2 h3 h4 with
            | some ch => (jsonStrContent rest).map fun p => (ch :: p.1, p.2)
            | none => none
          | _ => none
        else none
    else if c.toNat < 32 then none
    else (jsonStrContent rest).map fun p => (c :: p.1, p.2)

/-- `JSON.parse` of a complete double-quoted string literal. -/
def jsonParse (l : List Char) : Option (List Char) :=
  match l with
  | c :: rest =>
    if c = '"' then
      match jsonStrContent rest with
      | some (content, []) => some content
      | _ => none
    else none
  | [] => none

theorem charOfNat_toNat (c : Char) : Char.ofNat c.toNat = c := by
  unfold Char.ofNat
  split
  · next h =>
    apply Char.eq_of_val_eq
    apply UInt32.eq_of_toBitVec_eq
    simp only [Char.ofNatAux, Char.toNat, UInt32.toNat]
    apply BitVec.eq_of_toNat_eq
    simp
  · next h =>
    exact absurd (by simpa [Char.toNat] using c.valid) h

theorem hexVal_hexChar {n : Nat} (h : n < 16) : hexVal (hexChar n) = some n := by
  interval_cases n <;> decide

theorem hexChar_ne {n : Nat} (h : n < 16) :
    hexChar n ≠ '\\' ∧ hexChar n ≠ '\'' ∧ hexChar n ≠ '"' := by
  interval_cases n <;> exact ⟨by decide, by decide, by decide⟩

theorem jsonStrContent_raw {c : Char} (rest : List Char) (h1 : c ≠ '"') (h2 : c ≠ '\\')
    (h3 : ¬ c.toNat < 32) :
    jsonStrContent (c :: rest) = (jsonStrContent rest).map fun p => (c :: p.1, p.2) := by
  rw [jsonStrContent.eq_def]
  simp [h1, h2, h3]

/-- Round trip of the JSON escape through the JSON string parser. -/
theorem jsonStrContent_esc (l tail : List Char) :
    jsonStrContent (jsonEsc l ++ '"' :: tail) = some (l, tail) := by
  induction l with
  | nil =>
    show jsonStrContent ('"' :: tail) = some ([], tail)
    rw [jsonStrContent.eq_def]
    simp
  | cons c rest ih =>
    show jsonStrContent ((jsonEscChar c ++ jsonEsc rest) ++ '"' :: tail) = _
    rw [List.append_assoc]
    by_cases hq : c = '"'
    · subst hq
      rw [show jsonEscChar '"' = ['\\', '"'] from rfl, List.cons_append, List.cons_append,
        List.nil_append, jsonStrContent.eq_def]
      simp +decide [ih]
    · by_cases hb : c = '\\'
      · subst hb
        rw [show jsonEscChar '\\' = ['\\', '\\'] from rfl, List.cons_append, List.cons_append,
          List.nil_append, jsonStrContent.eq_def]
        simp +decide [ih]
      · by_cases hn : c = '\n'
        · subst hn
          rw [show jsonEscChar '\n' = ['\\', 'n'] from rfl, List.cons_append, List.cons_append,
            List.nil_append, jsonStrContent.eq_def]
          simp +decide [ih]
        · by_cases hr : c = '\r'
          · subst hr
            rw [show jsonEscChar '\r' = ['\\', 'r'] from rfl, List.cons_append,
              List.cons_append, List.nil_append, jsonStrContent.eq_def]
            simp +decide [ih]
          · by_cases ht : c = '\t'
            · subst ht
              rw [show jsonEscChar '\t' = ['\\', 't'] from rfl, List.cons_append,
                List.cons_append, List.nil_append, jsonStrContent.eq_def]
              simp +decide [ih]
            · by_cases hbs : c = Char.ofNat 8
              · subst hbs
                rw [show jsonEscChar (Char.ofNat 8) = ['\\', 'b'] from rfl, List.cons_append,
                  List.cons_append, List.nil_append, jsonStrContent.eq_def]
                simp +decide [ih]
              · by_cases hf : c = Char.ofNat 12
                · subst hf
                  rw [show jsonEscChar (Char.ofNat 12) = ['\\', 'f'] from rfl, List.cons_append,
                    List.cons_append, List.nil_append, jsonStrContent.eq_def]
                  simp +decide [ih]
                · by_cases hctl : c.toNat < 32
                  · rw [show jsonEscChar c =
                        ['\\', 'u', '0', '0', hexChar (c.toNat / 16), hexChar (c.toNat % 16)]
                        from by simp [jsonEscChar, hq, hb, hn, hr, ht, hbs, hf, hctl]]
                    have hdiv : c.toNat / 16 < 16 := by omega
                    have hmod : c.toNat % 16 < 16 := Nat.mod_lt _ (by norm_num)
                    have hh : hex4 '0' '0' (hexChar (c.toNat / 16)) (hexChar (c.toNat % 16)) =
                        some c := by
                      rw [hex4, hexVal_hexChar hdiv, hexVal_hexChar hmod]
                      show some (Char.ofNat (4096 * 0 + 256 * 0 + 16 * (c.toNat / 16) +
                        c.toNat % 16)) = some c
                      rw [show 4096 * 0 + 256 * 0 + 16 * (c.toNat / 16) + c.toNat % 16 =
                        c.toNat from by omega, charOfNat_toNat]
                    rw [List.cons_append, List.cons_append, List.cons_append, List.cons_append,
                      List.cons_append, List.cons_append, List.nil_append, jsonStrContent.eq_def]
                    simp +decide [hh, ih]
                  · rw [show jsonEscChar c = [c] from by
                      simp [jsonEscChar, hq, hb, hn, hr, ht, hbs, hf, hctl]]
                    rw [List.cons_append, List.nil_append,
                      jsonStrContent_raw _ hq hb hctl, ih]
                    rfl

/-- Body parser of a single-quoted JavaScript string literal (the
`eval` model): named escapes, `\uHHHH`, line continuations, the
identity escape for every other escaped character, and an error on a
raw line terminator.  (Legacy octal escapes, `\xHH` and `\u{...}` are
outside the model; the encoder never emits them.) -/
def sqStrContent : List Char → Option (List Char × List Char)
  | [] => none
  | c :: rest =>
    if c = '\'' then some ([], rest)
    else if c = '\\' then
      match rest with
      | [] => none
      | e :: rest =>
        if e = 'n' then (sqStrContent rest).map fun p => ('\n' :: p.1, p.2)
        else if e = 'r' then (sqStrContent rest).map fun p => ('\r' :: p.1, p.2)
        else if e = 't' then (sqStrContent rest).map fun p => ('\t' :: p.1, p.2)
        else if e = 'b' then (sqStrContent rest).map fun p => (Char.ofNat 8 :: p.1, p.2)
        else if e = 'f' then (sqStrContent rest).map fun p => (Char.ofNat 12 :: p.1, p.2)
        else if e = 'v' then (sqStrContent rest).map fun p => (Char.ofNat 11 :: p.1, p.2)
        else if e = 'u' then
          match rest with
          | h1 :: h2 :: h3 :: h4 :: rest =>
            match hex4 h1 h2 h3 h4 with
            | some ch => (sqStrContent rest).map fun p => (ch :: p.1, p.2)
            | none => none
          | _ => none
        else if e = '\n' ∨ e = '\r' then sqStrContent rest
        else (sqStrContent rest).map fun p => (e :: p.1, p.2)
    else if c = '\n' ∨ c = '\r' then none
    else (sqStrContent rest).map fun p => (c :: p.1, p.2)

/-- `eval` of a complete single-quoted string literal. -/
def sqParse (l : List Char) : Option (List Char) :=
  match l with
  | c :: rest =>
    if c = '\'' then
      match sqStrContent rest with
      | some (content, []) => some content
      | _ => none
    else none
  | [] => none

/-- `String.prototype.trim`. -/
def jsTrim (v : String) : String :=
  String.mk (((v.data.dropWhile Char.isWhitespace).reverse.dropWhile Char.isWhitespace).reverse)

/-- `decodeString(value)`: dispatch on `value.charCodeAt(0)` — `"` goes
through `JSON.parse`, `'` through `eval`, each falling back to stripping
the outer quotes (`value.substr(1, value.length - 2)`) on a parse error;
anything else is trimmed. -/
def decodeString (value : String) : String :=
  match value.data with
  | [] => jsTrim value
  | c :: _ =>
    if c = '"' then
      match jsonParse value.data with
      | some l => String.mk l
      | none => String.mk ((value.data.drop 1).take (value.data.length - 2))
    else if c = '\'' then
      match sqParse value.data with
      | some l => String.mk l
      | none => String.mk ((value.data.drop 1).take (value.data.length - 2))
    else jsTrim value

/-- `decodeString` inverts `encodeString` for the double-quote case. -/
theorem decode_encode_dq (s : String) : decodeString (encodeString s "\"") = s := by
  have he : encodeString s "\"" = String.mk ('"' :: (jsonEsc s.data ++ ['"'])) := rfl
  have hp : jsonParse ('"' :: (jsonEsc s.data ++ ['"'])) = some s.data := by
    have h := jsonStrContent_esc s.data []
    simp [jsonParse, h]
  rw [he]
  simp [decodeString, hp]


/-- The effective escape of one character after `encodeString`'s two
replacements on the `JSON.stringify` body: the double quote loses its
backslash, the single quote gains one, everything else keeps its JSON
escape. -/
def sqEscChar (c : Char) : List Char :=
  if c = '"' then ['"']
  else if c = '\'' then ['\\', '\'']
  else jsonEscChar c

/-- Chunk-wise version of the single-quote escape. -/
def sqEsc : List Char → List Char
  | [] => []
  | c :: rest => sqEscChar c ++ sqEsc rest

theorem replSQ_append (l₁ l₂ : List Char) : replSQ (l₁ ++ l₂) = replSQ l₁ ++ replSQ l₂ := by
  induction l₁ with
  | nil => rfl
  | cons c r ih =>
    show replSQ (c :: (r ++ l₂)) = _
    simp only [replSQ]
    split <;> simp [List.append_eq, ih]

theorem replSQ_id {l : List Char} (h : '\'' ∉ l) : replSQ l = l := by
  induction l with
  | nil => rfl
  | cons c r ih =>
    have hc : c ≠ '\'' := fun hc => h (hc ▸ List.mem_cons_self _ _)
    have hr : '\'' ∉ r := fun hr => h (List.mem_cons_of_mem _ hr)
    simp [replSQ, Ne.symm hc, fun hcc => hc hcc, ih hr]

theorem quote_not_mem_jsonEscChar {c : Char} (h : c ≠ '\'') : '\'' ∉ jsonEscChar c := by
  unfold jsonEscChar
  split_ifs with h1 h2 h3 h4 h5 h6 h7 h8
  · decide
  · decide
  · decide
  · decide
  · decide
  · decide
  · decide
  · intro hm
    simp only [List.mem_cons, List.not_mem_nil, or_false] at hm
    rcases hm with hm | hm | hm | hm | hm | hm
    · exact absurd hm (by decide)
    · exact absurd hm (by decide)
    · exact absurd hm (by decide)
    · exact absurd hm (by decide)
    · exact (hexChar_ne (by omega)).2.1 hm.symm
    · exact (hexChar_ne (Nat.mod_lt _ (by norm_num))).2.1 hm.symm
  · intro hm
    simp only [List.mem_singleton] at hm
    exact h hm.symm

theorem replBQ_cons {a : Char} (L : List Char) (h : a ≠ '\\') :
    replBQ (a :: L) = a :: replBQ L := by
  cases L with
  | nil => rfl
  | cons b t => simp [replBQ, h]

theorem replBQ_bs {L : List Char} (h : ∀ b t, L = b :: t → b ≠ '"') :
    replBQ ('\\' :: L) = '\\' :: replBQ L := by
  cases L with
  | nil => rfl
  | cons b t =>
    have hb := h b t rfl
    simp [replBQ, hb]

theorem jsonEscChar_head (c : Char) (hq : c ≠ '"') :
    ∀ b t, jsonEscChar c = b :: t → b ≠ '"' := by
  unfold jsonEscChar
  split_ifs with h1 h2 h3 h4 h5 h6 h7 h8 <;> intro b t hbt
  · exact absurd h1 hq
  · cases hbt; decide
  · cases hbt; decide
  · cases hbt; decide
  · cases hbt; decide
  · cases hbt; decide
  · cases hbt; decide
  · cases hbt; decide
  · cases hbt; exact hq

theorem head_replSQ_jsonEsc (l : List Char) :
    ∀ b t, replSQ (jsonEsc l) = b :: t → b ≠ '"' := by
  cases l with
  | nil => intro b t h; cases h
  | cons c r =>
    intro b t h
    rw [show jsonEsc (c :: r) = jsonEscChar c ++ jsonEsc r from rfl, replSQ_append] at h
    by_cases hs : c = '\''
    · subst hs
      rw [show replSQ (jsonEscChar '\'') = ['\\', '\''] from by decide] at h
      cases h
      decide
    · rw [replSQ_id (quote_not_mem_jsonEscChar hs)] at h
      by_cases hq : c = '"'
      · subst hq
        rw [show jsonEscChar '"' = ['\\', '"'] from rfl] at h
        cases h
        decide
      · obtain ⟨y, t', hyt⟩ : ∃ y t', jsonEscChar c = y :: t' := by
          unfold jsonEscChar
          split_ifs <;> exact ⟨_, _, rfl⟩
        have hy := jsonEscChar_head c hq y t' hyt
        rw [hyt] at h
        cases h
        exact hy

/-- One chunk of the backslash-quote replacement: the scan never joins a
chunk's trailing backslash with the next chunk, because no chunk starts
with a bare double quote. -/
theorem replBQ_chunk (c : Char) (L : List Char) (hL : ∀ b t, L = b :: t → b ≠ '"') :
    replBQ (replSQ (jsonEscChar c) ++ L) = sqEscChar c ++ replBQ L := by
  by_cases hs : c = '\''
  · subst hs
    rw [show replSQ (jsonEscChar '\'') = ['\\', '\''] from by decide]
    show replBQ ('\\' :: '\'' :: L) = _
    have h1 : replBQ ('\\' :: '\'' :: L) = '\\' :: replBQ ('\'' :: L) := by
      simp +decide [replBQ]
    rw [h1, replBQ_cons _ (by decide)]
    rfl
  · rw [replSQ_id (quote_not_mem_jsonEscChar hs)]
    by_cases hq : c = '"'
    · subst hq
      rw [show jsonEscChar '"' = ['\\', '"'] from rfl]
      show replBQ ('\\' :: '"' :: L) = _
      simp +decide [replBQ, sqEscChar]
    · by_cases hb : c = '\\'
      · subst hb
        rw [show jsonEscChar '\\' = ['\\', '\\'] from rfl]
        show replBQ ('\\' :: '\\' :: L) = _
        have h1 : replBQ ('\\' :: '\\' :: L) = '\\' :: replBQ ('\\' :: L) := by
          simp +decide [replBQ]
        rw [h1, replBQ_bs hL]
        rfl
      · by_cases hn : c = '\n'
        · subst hn
          rw [show jsonEscChar '\n' = ['\\', 'n'] from rfl]
          show replBQ ('\\' :: 'n' :: L) = _
          have h1 : replBQ ('\\' :: 'n' :: L) = '\\' :: replBQ ('n' :: L) := by
            simp +decide [replBQ]
          rw [h1, replBQ_cons _ (by decide)]
          rfl
        · by_cases hr : c = '\r'
          · subst hr
            rw [show jsonEscChar '\r' = ['\\', 'r'] from rfl]
            show replBQ ('\\' :: 'r' :: L) = _
            have h1 : replBQ ('\\' :: 'r' :: L) = '\\' :: replBQ ('r' :: L) := by
              simp +decide [replBQ]
            rw [h1, replBQ_cons _ (by decide)]
            rfl
          · by_cases ht : c = '\t'
            · subst ht
              rw [show jsonEscChar '\t' = ['\\', 't'] from rfl]
              show replBQ ('\\' :: 't' :: L) = _
              have h1 : replBQ ('\\' :: 't' :: L) = '\\' :: replBQ ('t' :: L) := by
                simp +decide [replBQ]
              rw [h1, replBQ_cons _ (by decide)]
              rfl
            · by_cases hbs : c = Char.ofNat 8
              · subst hbs
                rw [show jsonEscChar (Char.ofNat 8) = ['\\', 'b'] from rfl]
                show replBQ ('\\' :: 'b' :: L) = _
                have h1 : replBQ ('\\' :: 'b' :: L) = '\\' :: replBQ ('b' :: L) := by
                  simp +decide [replBQ]
                rw [h1, replBQ_cons _ (by decide)]
                rfl
              · by_cases hf : c = Char.ofNat 12
                · subst hf
                  rw [show jsonEscChar (Char.ofNat 12) = ['\\', 'f'] from rfl]
                  show replBQ ('\\' :: 'f' :: L) = _
                  have h1 : replBQ ('\\' :: 'f' :: L) = '\\' :: replBQ ('f' :: L) := by
                    simp +decide [replBQ]
                  rw [h1, replBQ_cons _ (by decide)]
                  rfl
                · by_cases hctl : c.toNat < 32
                  · rw [show jsonEscChar c =
                        ['\\', 'u', '0', '0', hexChar (c.toNat / 16), hexChar (c.toNat % 16)]
                        from by simp [jsonEscChar, hq, hb, hn, hr, ht, hbs, hf, hctl]]
                    show replBQ ('\\' :: 'u' :: '0' :: '0' :: hexChar (c.toNat / 16) ::
                      hexChar (c.toNat % 16) :: L) = _
                    rw [replBQ_bs (fun b t hbt => by cases hbt; decide),
                      replBQ_cons _ (by decide), replBQ_cons _ (by decide),
                      replBQ_cons _ (by decide),
                      replBQ_cons _ ((hexChar_ne (by omega)).1),
                      replBQ_cons _ ((hexChar_ne (Nat.mod_lt _ (by norm_num))).1)]
                    rw [show sqEscChar c = jsonEscChar c from by simp [sqEscChar, hq, hs],
                      show jsonEscChar c =
                        ['\\', 'u', '0', '0', hexChar (c.toNat / 16), hexChar (c.toNat % 16)]
                        from by simp [jsonEscChar, hq, hb, hn, hr, ht, hbs, hf, hctl]]
                    rfl
                  · rw [show jsonEscChar c = [c] from by
                      simp [jsonEscChar, hq, hb, hn, hr, ht, hbs, hf, hctl]]
                    show replBQ (c :: L) = _
                    rw [replBQ_cons _ hb,
                      show sqEscChar c = jsonEscChar c from by simp [sqEscChar, hq, hs],
                      show jsonEscChar c = [c] from by
                        simp [jsonEscChar, hq, hb, hn, hr, ht, hbs, hf, hctl]]
                    rfl

/-- The composition of the two replacements turns the JSON body into the
single-quote body, chunk by chunk. -/
theorem replBQ_replSQ_jsonEsc (l : List Char) :
    replBQ (replSQ (jsonEsc l)) = sqEsc l := by
  induction l with
  | nil => rfl
  | cons c r ih =>
    rw [show jsonEsc (c :: r) = jsonEscChar c ++ jsonEsc r from rfl, replSQ_append,
      replBQ_chunk c _ (head_replSQ_jsonEsc r), ih]
    rfl

theorem sqStrContent_raw {c : Char} (rest : List Char) (h1 : c ≠ '\'') (h2 : c ≠ '\\')
    (h3 : ¬ (c = '\n' ∨ c = '\r')) :
    sqStrContent (c :: rest) = (sqStrContent rest).map fun p => (c :: p.1, p.2) := by
  rw [sqStrContent.eq_def]
  simp [h1, h2, h3]

set_option maxHeartbeats 1600000 in
/-- Round trip of the effective single-quote escape through the
single-quoted-literal parser. -/
theorem sqStrContent_esc (l tail : List Char) :
    sqStrContent (sqEsc l ++ '\'' :: tail) = some (l, tail) := by
  induction l with
  | nil =>
    show sqStrContent ('\'' :: tail) = some ([], tail)
    rw [sqStrContent.eq_def]
    simp
  | cons c rest ih =>
    show sqStrContent ((sqEscChar c ++ sqEsc rest) ++ '\'' :: tail) = _
    rw [List.append_assoc]
    by_cases hq : c = '"'
    · subst hq
      rw [show sqEscChar '"' = ['"'] from rfl, List.cons_append, List.nil_append,
        sqStrContent.eq_def]
      simp +decide [ih]
    · by_cases hs : c = '\''
      · subst hs
        rw [show sqEscChar '\'' = ['\\', '\''] from rfl, List.cons_append, List.cons_append,
          List.nil_append, sqStrContent.eq_def]
        simp +decide [ih]
      · rw [show sqEscChar c = jsonEscChar c from by simp [sqEscChar, hq, hs]]
        by_cases hb : c = '\\'
        · subst hb
          rw [show jsonEscChar '\\' = ['\\', '\\'] from rfl, List.cons_append, List.cons_append,
            List.nil_append, sqStrContent.eq_def]
          simp +decide [ih]
        · by_cases hn : c = '\n'
          · subst hn
            rw [show jsonEscChar '\n' = ['\\', 'n'] from rfl, List.cons_append, List.cons_append,
              List.nil_append, sqStrContent.eq_def]
            simp +decide [ih]
          · by_cases hr : c = '\r'
            · subst hr
              rw [show jsonEscChar '\r' = ['\\', 'r'] from rfl, List.cons_append,
                List.cons_append, List.nil_append, sqStrContent.eq_def]
              simp +decide [ih]
            · by_cases ht : c = '\t'
              · subst ht
                rw [show jsonEscChar '\t' = ['\\', 't'] from rfl, List.cons_append,
                  List.cons_append, List.nil_append, sqStrContent.eq_def]
                simp +decide [ih]
              · by_cases hbs : c = Char.ofNat 8
                · subst hbs
                  rw [show jsonEscChar (Char.ofNat 8) = ['\\', 'b'] from rfl, List.cons_append,
                    List.cons_append, List.nil_append, sqStrContent.eq_def]
                  simp +decide [ih]
                · by_cases hf : c = Char.ofNat 12
                  · subst hf
                    rw [show jsonEscChar (Char.ofNat 12) = ['\\', 'f'] from rfl,
                      List.cons_append, List.cons_append, List.nil_append, sqStrContent.eq_def]
                    simp +decide [ih]
                  · by_cases hctl : c.toNat < 32
                    · rw [show jsonEscChar c =
                          ['\\', 'u', '0', '0', hexChar (c.toNat / 16), hexChar (c.toNat % 16)]
                          from by simp [jsonEscChar, hq, hb, hn, hr, ht, hbs, hf, hctl]]
                      have hh : hex4 '0' '0' (hexChar (c.toNat / 16)) (hexChar (c.toNat % 16)) =
                          some c := by
                        rw [hex4, hexVal_hexChar (by omega),
                          hexVal_hexChar (Nat.mod_lt _ (by norm_num))]
                        show some (Char.ofNat (4096 * 0 + 256 * 0 + 16 * (c.toNat / 16) +
                          c.toNat % 16)) = some c
                        rw [show 4096 * 0 + 256 * 0 + 16 * (c.toNat / 16) + c.toNat % 16 =
                          c.toNat from by omega, charOfNat_toNat]
                      rw [List.cons_append, List.cons_append, List.cons_append, List.cons_append,
                        List.cons_append, List.cons_append, List.nil_append, sqStrContent.eq_def]
                      simp +decide [hh, ih]
                    · rw [show jsonEscChar c = [c] from by
                        simp [jsonEscChar, hq, hb, hn, hr, ht, hbs, hf, hctl]]
                      have h3 : ¬ (c = '\n' ∨ c = '\r') := by
                        rintro (rfl | rfl) <;> simp at hctl
                      rw [List.cons_append, List.nil_append,
                        sqStrContent_raw _ hs hb h3, ih]
                      rfl

/-- `decodeString` inverts `encodeString` for the single-quote case. -/
theorem decode_encode_sq (s : String) : decodeString (encodeString s "'") = s := by
  have he : encodeString s "'" =
      String.mk ('\'' :: (replBQ (replSQ (jsonEsc s.data)) ++ ['\''])) := rfl
  rw [he, replBQ_replSQ_jsonEsc]
  have hp : sqParse ('\'' :: (sqEsc s.data ++ ['\''])) = some s.data := by
    have h := sqStrContent_esc s.data []
    simp [sqParse, h]
  simp +decide [decodeString, hp]

/-- C8: `decodeString` undoes `encodeString` for both quote characters:
for every string `s`, `decodeString (encodeString s "\"") = s` and
`decodeString (encodeString s "'") = s`. -/
theorem string_literal_roundtrip :
    (∀ s : String, decodeString (encodeString s "\"") = s) ∧
    (∀ s : String, decodeString (encodeString s "'") = s) :=
  ⟨decode_encode_dq, decode_encode_sq⟩


/-- The per-module keyword state of a JS module: the `_parsedKeywords`
deduplication list plus the replacement store. -/
structure JsModState where
  mod : ModState
  parsedKeywords : List String := []
  deriving Repr

/-- `this.options.js && this.options.js.keyword`: absent, literally
`false`, or a per-keyword table. -/
inductive KeywordOptions where
  | undefined
  | disabled
  | table (f : String → Option Bool)

/-- `options === false || options && options[source] === false`. -/
def keywordDisabled (o : KeywordOptions) (kw : String) : Bool :=
  match o with
  | .undefined => false
  | .disabled => true
  | .table f => f kw == some false

/-- `JSON.stringify` of a path, as interpolated into the shims. -/
def jsJsonStringify (s : String) : String :=
  String.mk ('"' :: (jsonEsc s.data ++ ['"']))

/-- The switch of `parseKeyword`, computing `(requireModule, prepend)`.
The `__dirname` case has no `break` in the source: its `prepend`
assignment falls through into the `__filename` case and is immediately
overwritten, which the shadowed `let` reproduces. -/
def keywordShims (source srcDir srcPath : String) : Option String × Option String :=
  if source = "require" ∨ source = "exports" ∨ source = "module" then (none, none)
  else if source = "global" then
    (none, some "var global = (function()\x7breturn this;\x7d)();\n")
  else if source = "process" then (some "process", some "var Buffer = require(~);\n")
  else if source = "Buffer" then (some "buffer", some "var Buffer = require(~);\n")
  else if source = "setImmediate" ∨ source = "clearImmediate" then
    (some "timers", some ("var " ++ source ++ " = require(~)." ++ source ++ ";\n"))
  else if source = "__dirname" then
    let prepend := "var __dirname = " ++ jsJsonStringify srcDir ++ ";\n"
    let prepend := "var __filename = " ++ jsJsonStringify srcPath ++ ";\n"
    (none, some prepend)
  else if source = "__filename" then
    (none, some ("var __filename = " ++ jsJsonStringify srcPath ++ ";\n"))
  else (none, none)

/-- `parseKeyword(source, index)`: honour the keyword options, handle
each keyword once per file, compute the shims, and prepend the shim via
`replace(0, 0, prepend)`.  A keyword whose shim requires a native module
resolves it through the host filesystem, which is outside the embedding
(`none`). -/
def parseKeyword (opts : KeywordOptions) (st : JsModState) (source srcDir srcPath : String) :
    Option JsModState :=
  if keywordDisabled opts source then some st
  else if source ∈ st.parsedKeywords then some st
  else
    let st := { st with parsedKeywords := st.parsedKeywords ++ [source] }
    match keywordShims source srcDir srcPath with
    | (some _, _) => none
    | (none, some prepend) => some { st with mod := (replace st.mod 0 0 (.str prepend)).1 }
    | (none, none) => some st

theorem filename_shim_ne_dirname_shim (x y : String) :
    "var __filename = " ++ x ≠ "var __dirname = " ++ y := by
  intro h
  have h2 : ("var __filename = " ++ x).data = ("var __dirname = " ++ y).data :=
    congrArg String.data h
  rw [String.data_append, String.data_append,
    show "var __filename = ".data =
      ['v', 'a', 'r', ' ', '_', '_', 'f', 'i', 'l', 'e', 'n', 'a', 'm', 'e', ' ', '=', ' ']
      from rfl,
    show "var __dirname = ".data =
      ['v', 'a', 'r', ' ', '_', '_', 'd', 'i', 'r', 'n', 'a', 'm', 'e', ' ', '=', ' ']
      from rfl] at h2
  simp +decide at h2

/-- C10: on the first `__dirname` keyword of a JS module (with keyword
handling enabled, i.e. the options not set to `false` for it), the shim
prepended at index 0 is the `__filename` declaration
`var __filename = JSON.stringify(srcPath);\n` — the `__dirname`
declaration assigned first is overwritten by the switch fall-through, so
no `__dirname` binding is emitted for that keyword. -/
theorem dirname_keyword_prepends_filename_shim (srcDir srcPath content : String) :
    keywordShims "__dirname" srcDir srcPath =
      (none, some ("var __filename = " ++ jsJsonStringify srcPath ++ ";\n")) ∧
    parseKeyword .undefined ⟨{ content := content }, []⟩ "__dirname" srcDir srcPath =
      some ⟨(replace { content := content } 0 0
          (.str ("var __filename = " ++ jsJsonStringify srcPath ++ ";\n"))).1,
        ["__dirname"]⟩ ∧
    (∀ d : String, (keywordShims "__dirname" srcDir srcPath).2 ≠
      some ("var __dirname = " ++ d)) := by
  refine ⟨by simp +decide [keywordShims], by simp +decide [parseKeyword, keywordShims,
    keywordDisabled], fun d h => ?_⟩
  rw [show (keywordShims "__dirname" srcDir srcPath).2 =
      some ("var __filename = " ++ (jsJsonStringify srcPath ++ ";\n")) from by
    simp +decide [keywordShims, String.append_assoc]] at h
  exact filename_shim_ne_dirname_shim _ _ (Option.some.injEq _ _ ▸ h)

end DigoWebPack
